import Mathlib

/-!
Shallow embedding of the movement-and-collision core of `plat.py`
(tile-based 2D platformer). Python floats are modelled as rationals;
Python `int(...)` truncation is `pytrunc`, Python `round(...)`
(half-to-even) is `pyRound`. The velocity magnitude `sqrt(x*x+y*y)`
is only ever used through `int(distance)`, which is modelled as
`Nat.sqrt` of the floored squared magnitude (proved below to equal
the floor of the real square root). Fallible map loading returns
`Except`. All definitions follow the source line by line.
-/

/-- `Point2d` from plat.py: a 2D point/vector with rational coordinates. -/
structure Point2d where
  x : ℚ
  y : ℚ
deriving DecidableEq, Repr

instance : Add Point2d := ⟨fun a b => ⟨a.x + b.x, a.y + b.y⟩⟩

instance : Sub Point2d := ⟨fun a b => ⟨a.x - b.x, a.y - b.y⟩⟩

instance : HMul Point2d ℚ Point2d := ⟨fun p c => ⟨p.x * c, p.y * c⟩⟩

/-- The squared Euclidean length of a vector (`Point2d.len` in the source
computes `sqrt` of this; the code only ever takes `int` of that root). -/
def lenSq (p : Point2d) : ℚ :=
  p.x * p.x + p.y * p.y

/-- `Collision` enum from plat.py. -/
inductive Collision where
  | X : Collision
  | Y : Collision
  | CORNER : Collision
deriving DecidableEq, Repr

/-- `TILE_SIZE = Point2d(64, 64)`. -/
def TILE_SIZE : Point2d := ⟨64, 64⟩

/-- `PLAYER_SIZE = Point2d(64, 64)`. -/
def PLAYER_SIZE : Point2d := ⟨64, 64⟩

/-- `AIR = 0`. -/
def AIR : ℤ := 0

/-- `START = 78`. -/
def START : ℤ := 78

/-- `FINISH = 110`. -/
def FINISH : ℤ := 110

/-- Python `int(q)`: truncation toward zero. -/
def pytrunc (q : ℚ) : ℤ :=
  if 0 ≤ q then ⌊q⌋ else ⌈q⌉

/-- Python `round(q)`: round half to even. -/
def pyRound (q : ℚ) : ℤ :=
  let f := ⌊q⌋
  let r := q - f
  if r < 1/2 then f
  else if 1/2 < r then f + 1
  else if f % 2 = 0 then f else f + 1

/-- The `Map` class from plat.py, without the texture (render-only). -/
structure Map where
  tiles : List ℤ
  width : ℕ
  height : ℕ
deriving DecidableEq, Repr

/-- The flat row-major index computed by `Map.__get_tile`:
both grid indices are clamped into `[0, width-1]` and `[0, height-1]`. -/
def Map.tileIndex (m : Map) (x y : ℤ) : ℤ :=
  let nx := min (max (pytrunc ((x : ℚ) / TILE_SIZE.x)) 0) ((m.width : ℤ) - 1)
  let ny := min (max (pytrunc ((y : ℚ) / TILE_SIZE.y)) 0) ((m.height : ℤ) - 1)
  ny * (m.width : ℤ) + nx

/-- `Map.__get_tile(x, y)`: clamped lookup of the tile at integer world
coordinates.  The list access `self.tiles[pos]` is modelled with `getD`;
the in-range theorem below shows the default is never used on a loaded map. -/
def Map.getTilePriv (m : Map) (x y : ℤ) : ℤ :=
  m.tiles.getD (m.tileIndex x y).toNat 0

/-- `Map.get_tile(pos)`: rounds each world coordinate, then looks up. -/
def Map.get_tile (m : Map) (pos : Point2d) : ℤ :=
  m.getTilePriv (pyRound pos.x) (pyRound pos.y)

/-- Tile solidity: `value not in {AIR, START, FINISH}`. -/
def tileSolid (t : ℤ) : Bool :=
  !(t == AIR || t == START || t == FINISH)

/-- `Map.__is_solid(x, y)`. -/
def Map.isSolidPriv (m : Map) (x y : ℤ) : Bool :=
  tileSolid (m.getTilePriv x y)

/-- `Map.is_solid(pos)`. -/
def Map.is_solid (m : Map) (pos : Point2d) : Bool :=
  m.isSolidPriv (pyRound pos.x) (pyRound pos.y)

/-- `Map.on_ground(pos, size)`: the two bottom corners, one unit down. -/
def Map.on_ground (m : Map) (pos size : Point2d) : Bool :=
  let s := size * (1/2 : ℚ)
  m.is_solid ⟨pos.x - s.x, pos.y + s.y + 1⟩ ||
    m.is_solid ⟨pos.x + s.x, pos.y + s.y + 1⟩

/-- `Map.test_box(pos, size)`: corner-sample overlap test (four corners). -/
def Map.test_box (m : Map) (pos size : Point2d) : Bool :=
  let s := size * (1/2 : ℚ)
  m.is_solid ⟨pos.x - s.x, pos.y - s.y⟩ ||
    m.is_solid ⟨pos.x + s.x, pos.y - s.y⟩ ||
    m.is_solid ⟨pos.x - s.x, pos.y + s.y⟩ ||
    m.is_solid ⟨pos.x + s.x, pos.y + s.y⟩

/-- One sub-step of the `move_box` loop body (state is
`(result, pos, vel)`).  Mirrors the Python loop body: candidate
position, combined test, single-axis probes, axis snapping, corner case. -/
def moveBoxStep (m : Map) (size : Point2d) (fraction : ℚ)
    (st : Finset Collision × Point2d × Point2d) :
    Finset Collision × Point2d × Point2d :=
  let result := st.1
  let pos := st.2.1
  let vel := st.2.2
  let np := pos + vel * fraction
  if m.test_box np size then
    let hitY := m.test_box ⟨pos.x, np.y⟩ size
    let hitX := m.test_box ⟨np.x, pos.y⟩ size
    if hitY || hitX then
      ((if hitX then insert Collision.X else id)
         ((if hitY then insert Collision.Y else id) result),
       ⟨if hitX then pos.x else np.x, if hitY then pos.y else np.y⟩,
       ⟨if hitX then 0 else vel.x, if hitY then 0 else vel.y⟩)
    else
      (insert Collision.CORNER result, pos, ⟨0, 0⟩)
  else
    (result, np, vel)

/-- The `for i in range(0, maximum + 1)` loop of `move_box`, as iteration
of `moveBoxStep` (the loop index is unused by the body). -/
def moveBoxLoop (m : Map) (size : Point2d) (fraction : ℚ) :
    ℕ → Finset Collision × Point2d × Point2d →
    Finset Collision × Point2d × Point2d
  | 0, st => st
  | n + 1, st => moveBoxLoop m size fraction n (moveBoxStep m size fraction st)

/-- Instrumentation of the loop: the list of displacements attempted by the
successive sub-steps (`vel * fraction` with the current velocity), in order. -/
def moveBoxTrace (m : Map) (size : Point2d) (fraction : ℚ) :
    ℕ → Finset Collision × Point2d × Point2d → List Point2d
  | 0, _ => []
  | n + 1, st =>
    (st.2.2 * fraction) :: moveBoxTrace m size fraction n (moveBoxStep m size fraction st)

/-- `int(distance)` for `distance = sqrt(lenSq vel)`:
the floor of the square root, computed as `Nat.sqrt` of the floored
squared length (proved below to coincide with `⌊Real.sqrt _⌋`). -/
def Map.moveBoxMaximum (vel : Point2d) : ℕ :=
  Nat.sqrt ⌊lenSq vel⌋.toNat

/-- `Map.move_box(pos, vel, size)`: swept, sub-stepped collision resolution.
The `distance < 0` early exit of the source (never true for a real
magnitude) is kept as the guard `lenSq vel < 0`. -/
def Map.move_box (m : Map) (pos vel size : Point2d) :
    Finset Collision × Point2d × Point2d :=
  if lenSq vel < 0 then (∅, pos, vel)
  else
    let maximum := Map.moveBoxMaximum vel
    let fraction : ℚ := 1 / ((maximum : ℚ) + 1)
    moveBoxLoop m size fraction (maximum + 1) (∅, pos, vel)

/-- The `Time` record: lap begin tick, last finish duration, best duration
(all `-1` when unset). -/
structure Time where
  begin : ℤ
  finish : ℤ
  best : ℤ
deriving DecidableEq, Repr

/-- The player state relevant to the simulation core. -/
structure Player where
  pos : Point2d
  vel : Point2d
  time : Time
deriving DecidableEq, Repr

/-- `Player.restart()`: fixed spawn, zero velocity, clear begin/finish. -/
def Player.restart (p : Player) : Player :=
  { p with pos := ⟨170, 500⟩, vel := ⟨0, 0⟩,
           time := { p.time with begin := -1, finish := -1 } }

/-- The held logical actions read by `Game.physics`. -/
structure Inputs where
  left : Bool
  right : Bool
  jump : Bool
  restart : Bool
deriving DecidableEq, Repr

/-- `Game.physics()`: restart handling, ground test, jump impulse, gravity,
ground/air horizontal response, clamp of `vel.x` into `[-8, 8]`, then the
collision resolver.  (`0.95` is modelled as `19/20`.) -/
def physics (m : Map) (inp : Inputs) (p0 : Player) : Player :=
  let p := if inp.restart then p0.restart else p0
  let ground := m.on_ground p.pos PLAYER_SIZE
  let vy0 : ℚ := if inp.jump && ground then -21 else p.vel.y
  let direction : ℚ := (if inp.right then 1 else 0) - (if inp.left then 1 else 0)
  let vy1 : ℚ := vy0 + 3/4
  let vx0 : ℚ :=
    if ground then 1/2 * p.vel.x + 4 * direction
    else 19/20 * p.vel.x + 2 * direction
  let vx1 : ℚ := min (max vx0 (-8)) 8
  let r := m.move_box p.pos ⟨vx1, vy1⟩ PLAYER_SIZE
  { p with pos := r.2.1, vel := r.2.2 }

/-- `Game.logic(tick)`: the lap-timer state machine, driven by the tile
under the current player position. -/
def logic (m : Map) (tick : ℤ) (p : Player) : Player :=
  let t := m.get_tile p.pos
  if t = START then
    { p with time := { p.time with begin := tick } }
  else if t = FINISH then
    if 0 ≤ p.time.begin then
      let fin := tick - p.time.begin
      let newBest := if p.time.best < 0 ∨ fin < p.time.best then fin else p.time.best
      { p with time := ⟨-1, fin, newBest⟩ }
    else p
  else p

/-- The line-by-line loop of `Map.__init__`: each row's values are appended
to the flat tile list; a row whose length differs from the previous
nonzero width raises (`Except.error`). -/
def loadRows : List (List ℤ) → Map → Except String Map
  | [], m => Except.ok m
  | row :: rest, m =>
    if 0 < m.width ∧ m.width ≠ row.length then
      Except.error "Incompatible line length in map"
    else
      loadRows rest ⟨m.tiles ++ row, row.length, m.height + 1⟩

/-- Map loading from tokenized rows of integers (the text-to-integer
tokenization itself is IO plumbing). -/
def loadFromRows (rows : List (List ℤ)) : Except String Map :=
  loadRows rows ⟨[], 0, 0⟩

/-- Row-major concatenation of the rows (what the loader accumulates). -/
def flatRows : List (List ℤ) → List ℤ
  | [] => []
  | row :: rest => row ++ flatRows rest

/-- A 2x1 map with a solid tile in column 1: a vertical wall to the right. -/
def mWall : Map := ⟨[0, 1], 2, 1⟩

/-- A 1x2 map with a solid tile in row 1: a floor below. -/
def mFloor : Map := ⟨[0, 1], 1, 2⟩

/-- A 2x2 map with a single solid tile in cell (1, 1): a convex corner. -/
def cornerMap : Map := ⟨[0, 0, 0, 1], 2, 2⟩

/-- A 1x1 all-air map. -/
def mAir : Map := ⟨[0], 1, 1⟩

/-- A 2x1 map with distinct non-solid tile ids 5 and 7. -/
def m10 : Map := ⟨[5, 7], 2, 1⟩

/-- A 1x1 map whose only tile is START. -/
def mStart : Map := ⟨[78], 1, 1⟩

/-- A 1x1 map whose only tile is FINISH. -/
def mFinish : Map := ⟨[110], 1, 1⟩

@[simp]
theorem Point2d.add_x (a b : Point2d) : (a + b).x = a.x + b.x := rfl

@[simp]
theorem Point2d.add_y (a b : Point2d) : (a + b).y = a.y + b.y := rfl

@[simp]
theorem Point2d.smul_x (a : Point2d) (c : ℚ) : (a * c).x = a.x * c := rfl

@[simp]
theorem Point2d.smul_y (a : Point2d) (c : ℚ) : (a * c).y = a.y * c := rfl

theorem lenSq_nonneg (p : Point2d) : 0 ≤ lenSq p :=
  add_nonneg (mul_self_nonneg _) (mul_self_nonneg _)

/-- The early-exit guard of `move_box` never fires, so every call runs the
sub-step loop `moveBoxMaximum vel + 1` times. -/
theorem move_box_eq_loop (m : Map) (pos vel size : Point2d) :
    m.move_box pos vel size =
      moveBoxLoop m size (1 / ((Map.moveBoxMaximum vel : ℚ) + 1))
        (Map.moveBoxMaximum vel + 1) (∅, pos, vel) := by
  unfold Map.move_box
  rw [if_neg (not_lt.mpr (lenSq_nonneg vel))]

/-- Any property preserved by `moveBoxStep` is preserved by the loop. -/
theorem moveBoxLoop_inv (m : Map) (size : Point2d) (fraction : ℚ)
    (P : Finset Collision × Point2d × Point2d → Prop)
    (hstep : ∀ st, P st → P (moveBoxStep m size fraction st)) :
    ∀ (n : ℕ) (st : Finset Collision × Point2d × Point2d),
      P st → P (moveBoxLoop m size fraction n st) := by
  intro n
  induction n with
  | zero => exact fun st h => h
  | succ k ih => exact fun st h => ih _ (hstep st h)

/-- A sub-step either keeps each velocity component or zeroes it. -/
theorem moveBoxStep_vel (m : Map) (size : Point2d) (fraction : ℚ)
    (st : Finset Collision × Point2d × Point2d) :
    ((moveBoxStep m size fraction st).2.2.x = st.2.2.x ∨
      (moveBoxStep m size fraction st).2.2.x = 0) ∧
    ((moveBoxStep m size fraction st).2.2.y = st.2.2.y ∨
      (moveBoxStep m size fraction st).2.2.y = 0) := by
  simp only [moveBoxStep]
  split_ifs <;> simp

/-- A sub-step preserves the axis-hit/zero-velocity correspondence. -/
theorem moveBoxStep_hit_zero (m : Map) (size : Point2d) (fraction : ℚ)
    (st : Finset Collision × Point2d × Point2d)
    (h : (Collision.X ∈ st.1 → st.2.2.x = 0) ∧ (Collision.Y ∈ st.1 → st.2.2.y = 0)) :
    (Collision.X ∈ (moveBoxStep m size fraction st).1 →
      (moveBoxStep m size fraction st).2.2.x = 0) ∧
    (Collision.Y ∈ (moveBoxStep m size fraction st).1 →
      (moveBoxStep m size fraction st).2.2.y = 0) := by
  obtain ⟨hx, hy⟩ := h
  simp only [moveBoxStep]
  split_ifs <;> simp_all [Finset.mem_insert]

/-- C1.  For every call to the collision resolver `move_box`, if axis `X`
(respectively `Y`) is in the returned axes-hit set, then the `X`
(respectively `Y`) component of the returned velocity is exactly `0`,
regardless of in which sub-step the hit was recorded. -/
theorem move_box_velocity_zero_on_hit (m : Map) (pos vel size : Point2d) :
    (Collision.X ∈ (m.move_box pos vel size).1 →
      (m.move_box pos vel size).2.2.x = 0) ∧
    (Collision.Y ∈ (m.move_box pos vel size).1 →
      (m.move_box pos vel size).2.2.y = 0) := by
  rw [move_box_eq_loop]
  exact moveBoxLoop_inv m size _
    (fun st => (Collision.X ∈ st.1 → st.2.2.x = 0) ∧
      (Collision.Y ∈ st.1 → st.2.2.y = 0))
    (fun st hst => moveBoxStep_hit_zero m size _ st hst) _ _ (by simp)

theorem move_box_velocity_zero_on_hit_witness :
    (Collision.X ∈ (mWall.move_box ⟨30, 32⟩ ⟨2, 0⟩ ⟨64, 64⟩).1 ∧
      (mWall.move_box ⟨30, 32⟩ ⟨2, 0⟩ ⟨64, 64⟩).2.2.x = 0) ∧
    (Collision.Y ∈ (mFloor.move_box ⟨32, 30⟩ ⟨0, 2⟩ ⟨64, 64⟩).1 ∧
      (mFloor.move_box ⟨32, 30⟩ ⟨0, 2⟩ ⟨64, 64⟩).2.2.y = 0) :=
  ⟨⟨by decide!, (move_box_velocity_zero_on_hit mWall ⟨30, 32⟩ ⟨2, 0⟩ ⟨64, 64⟩).1 (by decide!)⟩,
   ⟨by decide!, (move_box_velocity_zero_on_hit mFloor ⟨32, 30⟩ ⟨0, 2⟩ ⟨64, 64⟩).2 (by decide!)⟩⟩

/-- C2.  A sub-step whose combined candidate position overlaps solid while
neither single-axis probe overlaps records `CORNER`, leaves the position
unchanged for that sub-step, and sets velocity to `(0, 0)`; moreover there
is a concrete position/velocity/size triple (against `cornerMap`) for which
`move_box` returns exactly `{CORNER}`, the input position, and `(0, 0)`. -/
theorem move_box_corner_case :
    (∀ (m : Map) (acc : Finset Collision) (pos vel size : Point2d) (fraction : ℚ),
      m.test_box (pos + vel * fraction) size = true →
      m.test_box ⟨pos.x, (pos + vel * fraction).y⟩ size = false →
      m.test_box ⟨(pos + vel * fraction).x, pos.y⟩ size = false →
      moveBoxStep m size fraction (acc, pos, vel) =
        (insert Collision.CORNER acc, pos, ⟨0, 0⟩)) ∧
    cornerMap.move_box ⟨125/4, 125/4⟩ ⟨1/2, 1/2⟩ ⟨64, 64⟩ =
      ({Collision.CORNER}, ⟨125/4, 125/4⟩, ⟨0, 0⟩) := by
  constructor
  · intro m acc pos vel size fraction h1 h2 h3
    simp only [moveBoxStep, h1, h2, h3]
    simp
  · decide!

theorem move_box_corner_case_witness :
    moveBoxStep cornerMap ⟨64, 64⟩ 1 (∅, ⟨125/4, 125/4⟩, ⟨1/2, 1/2⟩) =
      ({Collision.CORNER}, ⟨125/4, 125/4⟩, ⟨0, 0⟩) :=
  move_box_corner_case.1 cornerMap ∅ ⟨125/4, 125/4⟩ ⟨1/2, 1/2⟩ ⟨64, 64⟩ 1
    (by decide!) (by decide!) (by decide!)

/-- The resolver either keeps each velocity component or zeroes it. -/
theorem move_box_vel_components (m : Map) (pos vel size : Point2d) :
    ((m.move_box pos vel size).2.2.x = vel.x ∨ (m.move_box pos vel size).2.2.x = 0) ∧
    ((m.move_box pos vel size).2.2.y = vel.y ∨ (m.move_box pos vel size).2.2.y = 0) := by
  rw [move_box_eq_loop]
  · refine moveBoxLoop_inv m size _
      (fun st => (st.2.2.x = vel.x ∨ st.2.2.x = 0) ∧ (st.2.2.y = vel.y ∨ st.2.2.y = 0))
      (fun st hst => ?_) _ _ ⟨Or.inl rfl, Or.inl rfl⟩
    obtain ⟨c, d⟩ := moveBoxStep_vel m size _ st
    constructor
    · rcases c with c | c
      · rw [c]; exact hst.1
      · exact Or.inr c
    · rcases d with d | d
      · rw [d]; exact hst.2
      · exact Or.inr d

theorem move_box_x_bounds (m : Map) (pos vel size : Point2d)
    (h1 : -8 ≤ vel.x) (h2 : vel.x ≤ 8) :
    -8 ≤ (m.move_box pos vel size).2.2.x ∧ (m.move_box pos vel size).2.2.x ≤ 8 := by
  obtain ⟨hx, -⟩ := move_box_vel_components m pos vel size
  rcases hx with hx | hx <;> rw [hx] <;> constructor <;> first | assumption | norm_num

/-- C5.  After every kinematics tick, for any held inputs and any prior
body state, `vel.x` lies in `[-8, 8]`; `vel.y` is not clamped (a concrete
airborne tick leaves it at `35/4 > 8`). -/
theorem physics_horizontal_clamp :
    (∀ (m : Map) (inp : Inputs) (p : Player),
      -8 ≤ (physics m inp p).vel.x ∧ (physics m inp p).vel.x ≤ 8) ∧
    ((physics mAir ⟨false, false, false, false⟩
        ⟨⟨32, -1000⟩, ⟨0, 8⟩, ⟨-1, -1, -1⟩⟩).vel.y = 35/4 ∧ (8 : ℚ) < 35/4) := by
  constructor
  · intro m inp p
    simp only [physics]
    apply move_box_x_bounds
    · exact le_min (le_max_right _ _) (by norm_num)
    · exact min_le_right _ _
  · exact ⟨by decide!, by norm_num⟩

/-- C7.  Applying `RESTART` to any body and lap-timer state yields position
exactly `(170, 500)`, velocity `(0, 0)`, lap timer begin and finish `-1`,
and the best time unchanged; a full physics tick with `RESTART` held also
leaves the lap timer at exactly that cleared state. -/
theorem restart_resets_body (p : Player) (m : Map) (l r j : Bool) :
    p.restart.pos = ⟨170, 500⟩ ∧ p.restart.vel = ⟨0, 0⟩ ∧
    p.restart.time.begin = -1 ∧ p.restart.time.finish = -1 ∧
    p.restart.time.best = p.time.best ∧
    (physics m ⟨l, r, j, true⟩ p).time = ⟨-1, -1, p.time.best⟩ :=
  ⟨rfl, rfl, rfl, rfl, rfl, rfl⟩

/-- C10.  The public tile queries round each world coordinate with Python
round (half to even) before the integer division by the 64-unit tile size:
`63.5` rounds up to `64` (sampling column 1), `63.4` stays in column 0, and
`62.5` rounds down to the even `62`. -/
theorem get_tile_rounds_half_to_even :
    (∀ (m : Map) (pos : Point2d),
      m.get_tile pos = m.getTilePriv (pyRound pos.x) (pyRound pos.y) ∧
      m.is_solid pos = m.isSolidPriv (pyRound pos.x) (pyRound pos.y)) ∧
    pyRound (127/2) = 64 ∧ pyRound (125/2) = 62 ∧
    m10.get_tile ⟨127/2, 32⟩ = 7 ∧ m10.get_tile ⟨317/5, 32⟩ = 5 :=
  ⟨fun m pos => ⟨rfl, rfl⟩, by decide!, by decide!, by decide!, by decide!⟩

/-- `moveBoxMaximum` is exactly the floor of the real Euclidean magnitude
of the velocity, i.e. the `int(distance)` of the source. -/
theorem moveBoxMaximum_eq_floor (vel : Point2d) :
    (Map.moveBoxMaximum vel : ℤ) = ⌊Real.sqrt ((lenSq vel : ℚ) : ℝ)⌋ := by
  have hs : (0 : ℚ) ≤ lenSq vel := lenSq_nonneg vel
  have hfl : (0 : ℤ) ≤ ⌊lenSq vel⌋ := Int.floor_nonneg.mpr hs
  have htn : (⌊lenSq vel⌋.toNat : ℤ) = ⌊lenSq vel⌋ := Int.toNat_of_nonneg hfl
  have hcast : ((⌊lenSq vel⌋.toNat : ℚ)) ≤ (lenSq vel : ℚ) := by
    have h2 := Int.floor_le (lenSq vel)
    rw [← htn] at h2
    exact_mod_cast h2
  have hlt : (lenSq vel : ℚ) < (⌊lenSq vel⌋.toNat : ℚ) + 1 := by
    have h1 := Int.lt_floor_add_one (lenSq vel)
    rw [← htn] at h1
    exact_mod_cast h1
  symm
  rw [Int.floor_eq_iff]
  constructor
  · have h1 : ((Nat.sqrt ⌊lenSq vel⌋.toNat : ℝ)) ≤ Real.sqrt (⌊lenSq vel⌋.toNat : ℝ) :=
      Real.nat_sqrt_le_real_sqrt
    have h2 : Real.sqrt (⌊lenSq vel⌋.toNat : ℝ) ≤ Real.sqrt ((lenSq vel : ℚ) : ℝ) :=
      Real.sqrt_le_sqrt (by exact_mod_cast hcast)
    calc ((Map.moveBoxMaximum vel : ℤ) : ℝ) = (Nat.sqrt ⌊lenSq vel⌋.toNat : ℝ) := by
          unfold Map.moveBoxMaximum; push_cast; ring
    _ ≤ Real.sqrt (⌊lenSq vel⌋.toNat : ℝ) := h1
    _ ≤ Real.sqrt ((lenSq vel : ℚ) : ℝ) := h2
  · have hpos : (0 : ℝ) < ((Map.moveBoxMaximum vel : ℤ) : ℝ) + 1 := by positivity
    rw [Real.sqrt_lt' hpos]
    have h3 : ⌊lenSq vel⌋.toNat < (Nat.sqrt ⌊lenSq vel⌋.toNat + 1) ^ 2 :=
      Nat.lt_succ_sqrt' _
    have h4 : ((lenSq vel : ℚ) : ℝ) < ((⌊lenSq vel⌋.toNat : ℝ)) + 1 := by exact_mod_cast hlt
    have h5 : ((⌊lenSq vel⌋.toNat : ℝ)) + 1 ≤ (((Map.moveBoxMaximum vel : ℤ) : ℝ) + 1) ^ 2 := by
      have : (⌊lenSq vel⌋.toNat + 1 : ℕ) ≤ (Nat.sqrt ⌊lenSq vel⌋.toNat + 1) ^ 2 := h3
      unfold Map.moveBoxMaximum
      exact_mod_cast this
    linarith

/-- C3.  Every call to `move_box` runs exactly `floor(|velocity|) + 1`
sub-steps: the loop count is `moveBoxMaximum vel + 1` where
`moveBoxMaximum vel` equals the floor of the real magnitude; the
instrumented trace of attempted displacements has that length, and each
recorded sub-step attempts the current velocity times the fixed fraction
`1 / (floor(|velocity|) + 1)`, in order. -/
theorem move_box_substep_count (m : Map) (pos vel size : Point2d) :
    ((Map.moveBoxMaximum vel : ℤ) = ⌊Real.sqrt ((lenSq vel : ℚ) : ℝ)⌋) ∧
    m.move_box pos vel size =
      moveBoxLoop m size (1 / ((Map.moveBoxMaximum vel : ℚ) + 1))
        (Map.moveBoxMaximum vel + 1) (∅, pos, vel) ∧
    (∀ (n : ℕ) (st : Finset Collision × Point2d × Point2d),
      (moveBoxTrace m size (1 / ((Map.moveBoxMaximum vel : ℚ) + 1)) n st).length = n) ∧
    (∀ (n : ℕ) (st : Finset Collision × Point2d × Point2d),
      moveBoxTrace m size (1 / ((Map.moveBoxMaximum vel : ℚ) + 1)) (n + 1) st =
        st.2.2 * (1 / ((Map.moveBoxMaximum vel : ℚ) + 1)) ::
          moveBoxTrace m size (1 / ((Map.moveBoxMaximum vel : ℚ) + 1)) n
            (moveBoxStep m size (1 / ((Map.moveBoxMaximum vel : ℚ) + 1)) st)) := by
  refine ⟨moveBoxMaximum_eq_floor vel, move_box_eq_loop m pos vel size, ?_, fun n st => rfl⟩
  intro n
  induction n with
  | zero => intro st; rfl
  | succ k ih => intro st; simp only [moveBoxTrace, List.length_cons, ih]

/-- C6.  The lap-timer transition evaluated once per tick on the tile under
the current player position: on START the begin tick is set unconditionally;
on FINISH with a running lap the finish duration is recorded, the lap is
disarmed, and the best time updates exactly when unset or beaten; on FINISH
without a running lap, and on any other tile, nothing changes. -/
theorem logic_lap_transitions (m : Map) (tick : ℤ) (p : Player) :
    (m.get_tile p.pos = START →
      logic m tick p = { p with time := { p.time with begin := tick } }) ∧
    (m.get_tile p.pos = FINISH → 0 ≤ p.time.begin →
      logic m tick p = { p with time :=
        ⟨-1, tick - p.time.begin,
         if p.time.best < 0 ∨ tick - p.time.begin < p.time.best
         then tick - p.time.begin else p.time.best⟩ }) ∧
    (m.get_tile p.pos = FINISH → p.time.begin < 0 → logic m tick p = p) ∧
    (m.get_tile p.pos ≠ START → m.get_tile p.pos ≠ FINISH → logic m tick p = p) := by
  refine ⟨fun h => ?_, fun h hb => ?_, fun h hb => ?_, fun h1 h2 => ?_⟩
  · simp [logic, h]
  · simp only [logic, h, START, FINISH]
    norm_num [hb]
  · simp only [logic, h, START, FINISH]
    norm_num [not_le.mpr hb]
  · simp [logic, h1, h2]

theorem logic_lap_transitions_witness :
    logic mStart 5 ⟨⟨32, 32⟩, ⟨0, 0⟩, ⟨-1, -1, -1⟩⟩ =
      ⟨⟨32, 32⟩, ⟨0, 0⟩, ⟨5, -1, -1⟩⟩ ∧
    logic mFinish 350 ⟨⟨32, 32⟩, ⟨0, 0⟩, ⟨100, -1, -1⟩⟩ =
      ⟨⟨32, 32⟩, ⟨0, 0⟩, ⟨-1, 250, 250⟩⟩ ∧
    logic mFinish 350 ⟨⟨32, 32⟩, ⟨0, 0⟩, ⟨-1, -1, 7⟩⟩ =
      ⟨⟨32, 32⟩, ⟨0, 0⟩, ⟨-1, -1, 7⟩⟩ := by
  refine ⟨?_, ?_, ?_⟩
  · rw [(logic_lap_transitions mStart 5 _).1 (by decide!)]
  · rw [(logic_lap_transitions mFinish 350 _).2.1 (by decide!) (by decide!)]
    norm_num
  · exact (logic_lap_transitions mFinish 350 _).2.2.1 (by decide!) (by decide!)

theorem pytrunc_of_nonneg (q : ℚ) (h : 0 ≤ q) : pytrunc q = ⌊q⌋ := if_pos h

/-- Truncating division localizes an integer world coordinate to its cell. -/
theorem pytrunc_div64 (y k : ℤ) (hk : 0 ≤ k) (h1 : 64 * k ≤ y) (h2 : y < 64 * (k + 1)) :
    pytrunc ((y : ℚ) / 64) = k := by
  have hy : (0 : ℤ) ≤ y := le_trans (by linarith) h1
  have h0 : (0 : ℚ) ≤ (y : ℚ) / 64 := by
    apply div_nonneg _ (by norm_num)
    exact_mod_cast hy
  rw [pytrunc_of_nonneg _ h0, Int.floor_eq_iff]
  constructor
  · rw [le_div_iff₀ (by norm_num : (0 : ℚ) < 64)]
    have : ((64 * k : ℤ) : ℚ) ≤ (y : ℚ) := by exact_mod_cast h1
    push_cast at this ⊢
    linarith
  · rw [div_lt_iff₀ (by norm_num : (0 : ℚ) < 64)]
    have : ((y : ℤ) : ℚ) < ((64 * (k + 1) : ℤ) : ℚ) := by exact_mod_cast h2
    push_cast at this ⊢
    linarith

theorem pytrunc_div64_nonpos (y : ℤ) (h : y < 0) : pytrunc ((y : ℚ) / 64) ≤ 0 := by
  have hq : (y : ℚ) / 64 < 0 :=
    div_neg_of_neg_of_pos (by exact_mod_cast h) (by norm_num)
  unfold pytrunc
  split_ifs with h0
  · exact absurd h0 (not_le.mpr hq)
  · exact Int.ceil_le.mpr (by exact_mod_cast hq.le)

theorem pytrunc_div64_ge_width (y : ℤ) (w : ℕ) (h : 64 * (w : ℤ) ≤ y) :
    (w : ℤ) ≤ pytrunc ((y : ℚ) / 64) := by
  have hy : (0 : ℤ) ≤ y := le_trans (by positivity) h
  have h0 : (0 : ℚ) ≤ (y : ℚ) / 64 := by
    apply div_nonneg _ (by norm_num)
    exact_mod_cast hy
  rw [pytrunc_of_nonneg _ h0, Int.le_floor]
  rw [le_div_iff₀ (by norm_num : (0 : ℚ) < 64)]
  have : ((64 * (w : ℤ) : ℤ) : ℚ) ≤ (y : ℚ) := by exact_mod_cast h
  push_cast at this ⊢
  linarith

/-- The clamped cell index of a world coordinate agrees with that of the
coordinate clamped into the in-bounds world range `[0, 64*w - 1]`. -/
theorem clampCell_eq (w : ℕ) (hw : 0 < w) (x : ℤ) :
    min (max (pytrunc ((x : ℚ) / 64)) 0) ((w : ℤ) - 1) =
      min (max (pytrunc (((min (max x 0) (64 * (w : ℤ) - 1) : ℤ) : ℚ) / 64)) 0)
        ((w : ℤ) - 1) := by
  rcases lt_or_le x 0 with hx | hx
  · have e1 : min (max x 0) (64 * (w : ℤ) - 1) = 0 := by omega
    rw [e1]
    have l1 : pytrunc ((x : ℚ) / 64) ≤ 0 := pytrunc_div64_nonpos x hx
    have l2 : pytrunc (((0 : ℤ) : ℚ) / 64) = 0 := pytrunc_div64 0 0 le_rfl (by omega) (by omega)
    rw [l2]
    omega
  · rcases lt_or_le x (64 * (w : ℤ)) with hx2 | hx2
    · have e1 : min (max x 0) (64 * (w : ℤ) - 1) = x := by omega
      rw [e1]
    · have e1 : min (max x 0) (64 * (w : ℤ) - 1) = 64 * (w : ℤ) - 1 := by omega
      rw [e1]
      have l1 : (w : ℤ) ≤ pytrunc ((x : ℚ) / 64) := pytrunc_div64_ge_width x w hx2
      have l2 : pytrunc (((64 * (w : ℤ) - 1 : ℤ) : ℚ) / 64) = (w : ℤ) - 1 :=
        pytrunc_div64 (64 * (w : ℤ) - 1) ((w : ℤ) - 1) (by omega) (by omega) (by omega)
      rw [l2]
      omega

/-- The clamped flat index is always inside `[0, width * height)`. -/
theorem tileIndex_bounds (m : Map) (hw : 0 < m.width) (hh : 0 < m.height) (x y : ℤ) :
    0 ≤ m.tileIndex x y ∧ m.tileIndex x y < (m.width : ℤ) * m.height := by
  simp only [Map.tileIndex]
  have ha1 : 0 ≤ min (max (pytrunc ((x : ℚ) / TILE_SIZE.x)) 0) ((m.width : ℤ) - 1) :=
    le_min (le_max_right _ _) (by omega)
  have ha2 : min (max (pytrunc ((x : ℚ) / TILE_SIZE.x)) 0) ((m.width : ℤ) - 1) ≤ (m.width : ℤ) - 1 :=
    min_le_right _ _
  have hb1 : 0 ≤ min (max (pytrunc ((y : ℚ) / TILE_SIZE.y)) 0) ((m.height : ℤ) - 1) :=
    le_min (le_max_right _ _) (by omega)
  have hb2 : min (max (pytrunc ((y : ℚ) / TILE_SIZE.y)) 0) ((m.height : ℤ) - 1) ≤ (m.height : ℤ) - 1 :=
    min_le_right _ _
  have hwz : (0 : ℤ) ≤ (m.width : ℤ) := by positivity
  constructor
  · have := mul_nonneg hb1 hwz
    linarith
  · have hmul : min (max (pytrunc ((y : ℚ) / TILE_SIZE.y)) 0) ((m.height : ℤ) - 1) * (m.width : ℤ) ≤
        ((m.height : ℤ) - 1) * (m.width : ℤ) :=
      mul_le_mul_of_nonneg_right hb2 hwz
    nlinarith

/-- C8.  On a loaded grid (positive dimensions, row-major tile list of
length `width * height`), every tile lookup clamps both grid indices into
range: the flat index is always inside the tiles array, and `getTilePriv`
and `isSolidPriv` at any integer world coordinate agree with the lookup at
the coordinate clamped to the nearest in-bounds edge cell. -/
theorem tile_query_clamps (m : Map) (hw : 0 < m.width) (hh : 0 < m.height)
    (hlen : m.tiles.length = m.width * m.height) (x y : ℤ) :
    (0 ≤ m.tileIndex x y ∧ (m.tileIndex x y).toNat < m.tiles.length) ∧
    m.getTilePriv x y =
      m.getTilePriv (min (max x 0) (64 * (m.width : ℤ) - 1))
        (min (max y 0) (64 * (m.height : ℤ) - 1)) ∧
    m.isSolidPriv x y =
      m.isSolidPriv (min (max x 0) (64 * (m.width : ℤ) - 1))
        (min (max y 0) (64 * (m.height : ℤ) - 1)) := by
  have hidx : m.tileIndex x y =
      m.tileIndex (min (max x 0) (64 * (m.width : ℤ) - 1))
        (min (max y 0) (64 * (m.height : ℤ) - 1)) := by
    simp only [Map.tileIndex, TILE_SIZE]
    rw [← clampCell_eq m.width hw x, ← clampCell_eq m.height hh y]
  obtain ⟨hge, hlt⟩ := tileIndex_bounds m hw hh x y
  have hlen2 : ((m.tiles.length : ℕ) : ℤ) = (m.width : ℤ) * m.height := by
    rw [hlen]; push_cast; ring
  have hget : m.getTilePriv x y =
      m.getTilePriv (min (max x 0) (64 * (m.width : ℤ) - 1))
        (min (max y 0) (64 * (m.height : ℤ) - 1)) := by
    unfold Map.getTilePriv
    rw [hidx]
  refine ⟨⟨hge, by omega⟩, hget, ?_⟩
  unfold Map.isSolidPriv
  rw [hget]

theorem tile_query_clamps_witness :
    ((0 ≤ mAir.tileIndex (-5) 1000 ∧ (mAir.tileIndex (-5) 1000).toNat < mAir.tiles.length) ∧
      mAir.getTilePriv (-5) 1000 = mAir.getTilePriv 0 63 ∧
      mAir.isSolidPriv (-5) 1000 = mAir.isSolidPriv 0 63) := by
  have h := tile_query_clamps mAir (by decide) (by decide) (by decide) (-5) 1000
  refine ⟨h.1, ?_, ?_⟩
  · have h2 := h.2.1
    norm_num at h2 ⊢
    exact h2
  · have h3 := h.2.2
    norm_num at h3 ⊢
    exact h3

theorem pyRound_intCast (n : ℤ) : pyRound ((n : ℤ) : ℚ) = n := by
  simp [pyRound, Int.floor_intCast]

/-- Running the loader over rows of equal length `w` from an accumulator of
width `w` appends all rows and counts them. -/
theorem loadRows_ok (w : ℕ) :
    ∀ (rows : List (List ℤ)) (acc : Map),
      (∀ row ∈ rows, row.length = w) → acc.width = w →
      loadRows rows acc =
        Except.ok ⟨acc.tiles ++ flatRows rows, w, acc.height + rows.length⟩ := by
  intro rows
  induction rows with
  | nil =>
    intro acc hrect hacc
    obtain ⟨t, ww, hh⟩ := acc
    simp only [loadRows, flatRows, List.append_nil, List.length_nil, Nat.add_zero]
    simp only at hacc
    rw [hacc]
  | cons row rest ih =>
    intro acc hrect hacc
    have hrow : row.length = w := hrect row (by simp)
    simp only [loadRows]
    rw [if_neg (by rw [hacc, hrow]; simp)]
    rw [ih ⟨acc.tiles ++ row, row.length, acc.height + 1⟩
      (fun r hr => hrect r (by simp [hr])) (by simp [hrow])]
    simp only [flatRows, List.append_assoc, List.length_cons, Except.ok.injEq, Map.mk.injEq,
      eq_self_iff_true, true_and, and_true]
    omega

/-- Reading the row-major concatenation of equal-length rows at
`r * w + c` gives entry `c` of row `r`. -/
theorem flatRows_getD (w : ℕ) :
    ∀ (rows : List (List ℤ)) (r c : ℕ),
      (∀ row ∈ rows, row.length = w) → r < rows.length → c < w →
      (flatRows rows).getD (r * w + c) 0 = (rows.getD r []).getD c 0 := by
  intro rows
  induction rows with
  | nil => intro r c _ hr _; simp at hr
  | cons row rest ih =>
    intro r c hrect hr hc
    have hl : row.length = w := hrect row (by simp)
    cases r with
    | zero =>
      simp only [flatRows, Nat.zero_mul, Nat.zero_add, List.getD_cons_zero]
      exact List.getD_append _ _ _ _ (by omega)
    | succ k =>
      simp only [flatRows, List.getD_cons_succ]
      rw [List.getD_append_right _ _ _ _ (by rw [hl]; nlinarith)]
      rw [hl]
      have harith : (k + 1) * w + c - w = k * w + c := by
        have : (k + 1) * w = k * w + w := by ring
        omega
      rw [harith]
      exact ih k c (fun rr hh => hrect rr (by simp [hh])) (by simpa using hr) hc

/-- C9.  Loading any rectangular grid of integers succeeds and round-trips:
`get_tile` at the center of cell `(c, r)` returns the source value at row
`r`, column `c`. -/
theorem load_round_trip (rows : List (List ℤ)) (w : ℕ) (hw : 0 < w)
    (hrect : ∀ row ∈ rows, row.length = w) :
    ∃ m : Map, loadFromRows rows = Except.ok m ∧
      ∀ r c : ℕ, r < rows.length → c < w →
        m.get_tile ⟨64 * (c : ℚ) + 32, 64 * (r : ℚ) + 32⟩ = (rows.getD r []).getD c 0 := by
  cases rows with
  | nil => exact ⟨⟨[], 0, 0⟩, rfl, fun r c hr => absurd hr (by simp)⟩
  | cons row rest =>
    have hrow : row.length = w := hrect row (by simp)
    refine ⟨⟨flatRows (row :: rest), w, (row :: rest).length⟩, ?_, ?_⟩
    · unfold loadFromRows
      simp only [loadRows]
      rw [if_neg (by simp)]
      simp only [List.nil_append, Nat.zero_add]
      rw [loadRows_ok w rest ⟨row, row.length, 1⟩
        (fun rr hh => hrect rr (by simp [hh])) hrow]
      simp [flatRows, hrow]
      omega
    · intro r c hr hc
      have hx : pyRound (64 * (c : ℚ) + 32) = 64 * (c : ℤ) + 32 := by
        rw [show (64 * (c : ℚ) + 32) = ((64 * (c : ℤ) + 32 : ℤ) : ℚ) by push_cast; ring]
        exact pyRound_intCast _
      have hy : pyRound (64 * (r : ℚ) + 32) = 64 * (r : ℤ) + 32 := by
        rw [show (64 * (r : ℚ) + 32) = ((64 * (r : ℤ) + 32 : ℤ) : ℚ) by push_cast; ring]
        exact pyRound_intCast _
      have hnx : pytrunc (((64 * (c : ℤ) + 32 : ℤ) : ℚ) / 64) = (c : ℤ) :=
        pytrunc_div64 _ _ (by positivity) (by omega) (by omega)
      have hny : pytrunc (((64 * (r : ℤ) + 32 : ℤ) : ℚ) / 64) = (r : ℤ) :=
        pytrunc_div64 _ _ (by positivity) (by omega) (by omega)
      simp only [Map.get_tile, Map.getTilePriv, Map.tileIndex, TILE_SIZE, hx, hy, hnx, hny]
      have hcellx : min (max (c : ℤ) 0) ((w : ℤ) - 1) = (c : ℤ) := by omega
      have hcelly : min (max (r : ℤ) 0) (((row :: rest).length : ℤ) - 1) = (r : ℤ) := by
        simp only [List.length_cons] at hr ⊢
        omega
      rw [hcellx, hcelly]
      have hidx : ((r : ℤ) * (w : ℤ) + (c : ℤ)).toNat = r * w + c := by
        rw [show (r : ℤ) * (w : ℤ) + (c : ℤ) = ((r * w + c : ℕ) : ℤ) by push_cast; ring]
        exact Int.toNat_natCast _
      rw [hidx]
      exact flatRows_getD w (row :: rest) r c hrect hr hc

theorem load_round_trip_witness :
    ∃ m : Map, loadFromRows [[1, 2], [3, 4]] = Except.ok m ∧
      m.get_tile ⟨64 * (1 : ℚ) + 32, 64 * (0 : ℚ) + 32⟩ = 2 := by
  obtain ⟨m, h1, h2⟩ := load_round_trip [[1, 2], [3, 4]] 2 (by norm_num) (by decide)
  refine ⟨m, h1, ?_⟩
  have h3 := h2 0 1 (by norm_num) (by norm_num)
  norm_num at h3 ⊢
  exact h3

/-- Half-to-even rounding sends the half-open band of radius `1/2` around
an even integer to that integer. -/
theorem pyRound_band (k : ℤ) (hk : k % 2 = 0) (b : ℚ)
    (h1 : (k : ℚ) - 1/2 ≤ b) (h2 : b < (k : ℚ) + 1/2) : pyRound b = k := by
  rcases le_or_lt (k : ℚ) b with hb | hb
  · have hf : ⌊b⌋ = k := by
      rw [Int.floor_eq_iff]
      refine ⟨hb, ?_⟩
      push_cast
      linarith
    simp only [pyRound, hf]
    rw [if_pos (show b - ((k : ℤ) : ℚ) < 1/2 by push_cast; linarith)]
  · have hf : ⌊b⌋ = k - 1 := by
      rw [Int.floor_eq_iff]
      constructor
      · push_cast
        linarith
      · push_cast
        linarith
    simp only [pyRound, hf]
    rw [if_neg (show ¬(b - ((k - 1 : ℤ) : ℚ) < 1/2) by push_cast; linarith)]
    rcases lt_or_eq_of_le (show (1 : ℚ)/2 ≤ b - ((k - 1 : ℤ) : ℚ) by push_cast; linarith)
      with hlt | heq
    · rw [if_pos hlt]
      omega
    · rw [if_neg (by rw [← heq]; exact lt_irrefl _)]
      rw [if_neg (by omega)]
      omega

/-- If row `r` of the grid is entirely solid, the clamped lookup at vertical
world coordinate `64 * r` is solid whatever the horizontal coordinate is. -/
theorem isSolidPriv_row (m : Map) (r : ℕ) (hr : r < m.height) (hw : 0 < m.width)
    (hrow : ∀ c, c < m.width → tileSolid (m.tiles.getD (r * m.width + c) 0) = true)
    (x : ℤ) : m.isSolidPriv x (64 * (r : ℤ)) = true := by
  simp only [Map.isSolidPriv, Map.getTilePriv, Map.tileIndex, TILE_SIZE]
  have hny : pytrunc (((64 * (r : ℤ) : ℤ) : ℚ) / 64) = (r : ℤ) :=
    pytrunc_div64 (64 * (r : ℤ)) (r : ℤ) (by positivity) (by omega) (by omega)
  rw [hny]
  have hcy : min (max (r : ℤ) 0) ((m.height : ℤ) - 1) = (r : ℤ) := by omega
  rw [hcy]
  have h0 : 0 ≤ min (max (pytrunc ((x : ℚ) / 64)) 0) ((m.width : ℤ) - 1) :=
    le_min (le_max_right _ _) (by omega)
  have h1 : min (max (pytrunc ((x : ℚ) / 64)) 0) ((m.width : ℤ) - 1) ≤ (m.width : ℤ) - 1 :=
    min_le_right _ _
  have hcast : ((r : ℤ) * (m.width : ℤ) +
        min (max (pytrunc ((x : ℚ) / 64)) 0) ((m.width : ℤ) - 1)).toNat =
      r * m.width + (min (max (pytrunc ((x : ℚ) / 64)) 0) ((m.width : ℤ) - 1)).toNat := by
    rw [show (r : ℤ) * (m.width : ℤ) = ((r * m.width : ℕ) : ℤ) by push_cast; ring]
    omega
  rw [hcast]
  exact hrow _ (by omega)

/-- A corner whose vertical coordinate lies within half a unit of `64 * r`
samples the fully solid row `r`. -/
theorem is_solid_band (m : Map) (r : ℕ) (hr : r < m.height) (hw : 0 < m.width)
    (hrow : ∀ c, c < m.width → tileSolid (m.tiles.getD (r * m.width + c) 0) = true)
    (a b : ℚ) (h1 : 64 * (r : ℚ) - 1/2 ≤ b) (h2 : b < 64 * (r : ℚ) + 1/2) :
    m.is_solid ⟨a, b⟩ = true := by
  have hb : pyRound b = 64 * (r : ℤ) := by
    apply pyRound_band (64 * (r : ℤ)) (by omega) b
    · push_cast
      linarith
    · push_cast
      linarith
  show m.isSolidPriv (pyRound a) (pyRound b) = true
  rw [hb]
  exact isSolidPriv_row m r hr hw hrow (pyRound a)

/-- A box whose bottom-corner coordinate lies in the sampling band of the
fully solid row `r` fails the overlap test. -/
theorem test_box_band (m : Map) (r : ℕ) (hr : r < m.height) (hw : 0 < m.width)
    (hrow : ∀ c, c < m.width → tileSolid (m.tiles.getD (r * m.width + c) 0) = true)
    (p size : Point2d)
    (h1 : 64 * (r : ℚ) - 1/2 ≤ p.y + size.y * (1/2))
    (h2 : p.y + size.y * (1/2) < 64 * (r : ℚ) + 1/2) :
    m.test_box p size = true := by
  have hc := is_solid_band m r hr hw hrow (p.x - size.x * (1/2)) (p.y + size.y * (1/2)) h1 h2
  simp only [Map.test_box, Point2d.smul_x, Point2d.smul_y]
  rw [hc]
  simp

/-- One sub-step against a fully solid row `r` keeps the bottom corner
strictly above the sampling band of the row, provided the attempted
vertical displacement is below one unit; the vertical velocity is kept or
zeroed. -/
theorem moveBoxStep_stays_above (m : Map) (r : ℕ) (size : Point2d) (fraction : ℚ)
    (hr : r < m.height) (hw : 0 < m.width)
    (hrow : ∀ c, c < m.width → tileSolid (m.tiles.getD (r * m.width + c) 0) = true)
    (R : Finset Collision) (P V : Point2d)
    (hvy : |V.y * fraction| < 1)
    (hpos : P.y + size.y * (1/2) < 64 * (r : ℚ) - 1/2) :
    (moveBoxStep m size fraction (R, P, V)).2.1.y + size.y * (1/2) < 64 * (r : ℚ) - 1/2 ∧
    ((moveBoxStep m size fraction (R, P, V)).2.2.y = V.y ∨
      (moveBoxStep m size fraction (R, P, V)).2.2.y = 0) := by
  have habs := abs_lt.mp hvy
  have hband : P.y + V.y * fraction + size.y * (1/2) < 64 * (r : ℚ) + 1/2 := by
    linarith [habs.2]
  simp only [moveBoxStep, Point2d.add_x, Point2d.add_y, Point2d.smul_x, Point2d.smul_y]
  by_cases hT : m.test_box (P + V * fraction) size = true
  · rcases le_or_lt (64 * (r : ℚ) - 1/2) (P.y + V.y * fraction + size.y * (1/2))
      with hge | hlt
    · have hY : m.test_box ⟨P.x, P.y + V.y * fraction⟩ size = true :=
        test_box_band m r hr hw hrow ⟨P.x, P.y + V.y * fraction⟩ size hge hband
      simp only [hT, hY, Bool.true_or, if_true]
      constructor
      · simpa using hpos
      · by_cases hX : m.test_box ⟨P.x + V.x * fraction, P.y⟩ size = true <;>
          simp [hX]
    · simp only [hT, if_true]
      by_cases hY : m.test_box ⟨P.x, P.y + V.y * fraction⟩ size = true
      · simp only [hY, Bool.true_or, if_true]
        constructor
        · simpa using hpos
        · by_cases hX : m.test_box ⟨P.x + V.x * fraction, P.y⟩ size = true <;>
            simp [hX]
      · by_cases hX : m.test_box ⟨P.x + V.x * fraction, P.y⟩ size = true
        · simp only [hY, hX]
          simp
          linarith [hlt]
        · simp only [hY, hX]
          simp
          linarith [hpos]
  · have hdown : P.y + V.y * fraction + size.y * (1/2) < 64 * (r : ℚ) - 1/2 := by
      by_contra hcon
      push_neg at hcon
      exact hT (test_box_band m r hr hw hrow (P + V * fraction) size (by simpa using hcon)
        (by simpa using hband))
    simp only [hT]
    simp
    linarith [hdown]

/-- C4.  For a grid whose row `r` is a fully solid tile row and a box
approaching it from above with velocity magnitude at most `64`, one call to
`move_box` never places the sampled bottom corners of the box into or past
the solid row: the bottom-corner coordinate stays strictly above the
sampling band of row `r` (no tunneling within one tick). -/
theorem move_box_no_tunneling (m : Map) (r : ℕ) (pos vel size : Point2d)
    (hr : r < m.height) (hw : 0 < m.width)
    (hrow : ∀ c, c < m.width → tileSolid (m.tiles.getD (r * m.width + c) 0) = true)
    (hmag : lenSq vel ≤ 64 * 64) (hdir : 0 < vel.y)
    (habove : pos.y + size.y * (1/2) < 64 * (r : ℚ) - 1/2) :
    (m.move_box pos vel size).2.1.y + size.y * (1/2) < 64 * (r : ℚ) - 1/2 := by
  rw [move_box_eq_loop]
  have hM : lenSq vel < ((Map.moveBoxMaximum vel : ℚ) + 1) ^ 2 := by
    have hfl : (0 : ℤ) ≤ ⌊lenSq vel⌋ := Int.floor_nonneg.mpr (lenSq_nonneg vel)
    have htn : (⌊lenSq vel⌋.toNat : ℤ) = ⌊lenSq vel⌋ := Int.toNat_of_nonneg hfl
    have h1 : lenSq vel < (⌊lenSq vel⌋.toNat : ℚ) + 1 := by
      have h0 := Int.lt_floor_add_one (lenSq vel)
      rw [← htn] at h0
      exact_mod_cast h0
    have h3 : ⌊lenSq vel⌋.toNat + 1 ≤ (Nat.sqrt ⌊lenSq vel⌋.toNat + 1) ^ 2 :=
      Nat.lt_succ_sqrt' _
    have h4 : (⌊lenSq vel⌋.toNat : ℚ) + 1 ≤ ((Map.moveBoxMaximum vel : ℚ) + 1) ^ 2 := by
      unfold Map.moveBoxMaximum
      exact_mod_cast h3
    linarith
  have hy2 : vel.y ^ 2 < ((Map.moveBoxMaximum vel : ℚ) + 1) ^ 2 := by
    have hx2 : 0 ≤ vel.x * vel.x := mul_self_nonneg _
    have hle : vel.y ^ 2 ≤ lenSq vel := by
      unfold lenSq
      nlinarith
    linarith
  have hMpos : (0 : ℚ) < (Map.moveBoxMaximum vel : ℚ) + 1 := by positivity
  have habsy : |vel.y| < (Map.moveBoxMaximum vel : ℚ) + 1 := by
    nlinarith [sq_abs vel.y, abs_nonneg vel.y,
      sq_nonneg (|vel.y| - ((Map.moveBoxMaximum vel : ℚ) + 1))]
  have hfr : (0 : ℚ) < 1 / ((Map.moveBoxMaximum vel : ℚ) + 1) := by positivity
  have hvy : |vel.y * (1 / ((Map.moveBoxMaximum vel : ℚ) + 1))| < 1 := by
    rw [abs_mul, abs_of_pos hfr, mul_one_div, div_lt_one hMpos]
    exact habsy
  exact (moveBoxLoop_inv m size (1 / ((Map.moveBoxMaximum vel : ℚ) + 1))
    (fun st => |st.2.2.y * (1 / ((Map.moveBoxMaximum vel : ℚ) + 1))| < 1 ∧
      st.2.1.y + size.y * (1/2) < 64 * (r : ℚ) - 1/2)
    (fun st hst => by
      obtain ⟨R, P, V⟩ := st
      obtain ⟨hA, hB⟩ := moveBoxStep_stays_above m r size
        (1 / ((Map.moveBoxMaximum vel : ℚ) + 1)) hr hw hrow R P V hst.1 hst.2
      refine ⟨?_, hA⟩
      rcases hB with hB | hB <;> rw [hB]
      · exact hst.1
      · norm_num)
    (Map.moveBoxMaximum vel + 1) (∅, pos, vel) ⟨hvy, habove⟩).2

theorem move_box_no_tunneling_witness :
    (mFloor.move_box ⟨32, 20⟩ ⟨0, 8⟩ ⟨64, 64⟩).2.1.y + (64 : ℚ) * (1/2) <
      64 * ((1 : ℕ) : ℚ) - 1/2 :=
  move_box_no_tunneling mFloor 1 ⟨32, 20⟩ ⟨0, 8⟩ ⟨64, 64⟩ (by decide) (by decide)
    (by decide) (by decide!) (by decide!) (by decide!)
